import Mathlib

/-!
GreenScreen: chroma-key compositing (`greenscreen.cpp`)

A shallow embedding of the class `CbCrChromaKeyAlg`.

Modelling conventions

* `cv::Vec3b` is a triple of 8-bit channels (`Fin 256`), indexed 0 (blue), 1 (green), 2 (red).
* C++ `int` values are `Int`. The subtraction `toleranceB - toleranceA` of the ramp wraps to
  32 bits, two's complement (`wrapInt32`); the other `int` operations are taken as
  exact.
* C++ `float` values are rationals (`ℚ`). The subtraction `1 - alpha`, whose result is
  truncated to the `int` mask, is rounded to binary32 (round to nearest, ties to even,
  `roundF32`); the other `float` operations are exact. A conversion `int → float` is the
  cast, a conversion `float → int` truncates toward zero.
* The library function `sqrt` is a parameter `sqrtf : ℚ → ℚ` of every function that
  reaches it; theorems that depend on its value assume `SqrtSpec sqrtf`.
* A store of an `int` into an 8-bit channel reduces modulo 256.
* A `cv::Mat` is its dimensions and a total function from positions to pixels; an access
  `at(i, j)` outside an image's dimensions is not modelled.
* The constructor never writes the member `delta`; the value the member holds after
  construction is the explicit argument `uninit` of `CbCrChromaKeyAlg.construct`.
-/

namespace GreenScreen

/-- A pixel `cv::Vec3b`: three 8-bit channels, `v0` blue, `v1` green, `v2` red. -/
structure Vec3b where
  v0 : Fin 256
  v1 : Fin 256
  v2 : Fin 256
  deriving DecidableEq, Repr

/-- Conversion `float → int`: truncation toward zero. -/
def truncToInt (x : ℚ) : Int :=
  if 0 ≤ x then ⌊x⌋ else ⌈x⌉

/-- Store of an `int` into an 8-bit channel: reduction modulo 256. -/
def storeU8 (x : Int) : Fin 256 :=
  ⟨(x % 256).toNat, by omega⟩

/-- Result of a 32-bit `int` operation whose exact value is `x`: reduction to
`[-2^31, 2^31)`, two's complement. -/
def wrapInt32 (x : Int) : Int :=
  (x + 2147483648) % 4294967296 - 2147483648

/-- Round to the nearest integer, ties to the even one. -/
def roundHalfEven (x : ℚ) : Int :=
  if x - ⌊x⌋ < 1 / 2 then ⌊x⌋
  else if 1 / 2 < x - ⌊x⌋ then ⌊x⌋ + 1
  else if ⌊x⌋ % 2 = 0 then ⌊x⌋ else ⌊x⌋ + 1

/-- Binary logarithm of a natural number, rounded down; `fuel` bounds the number of bits. -/
def log2Fuel : Nat → Nat → Nat
  | 0, _ => 0
  | fuel + 1, n => if n < 2 then 0 else log2Fuel fuel (n / 2) + 1

/-- Binary exponent of a positive rational `x`: the `e` with `2^e ≤ x < 2^(e+1)`. -/
def ilog2 (x : ℚ) : Int :=
  if (2 : ℚ) ^ ((log2Fuel x.num.natAbs x.num.natAbs : Int) - (log2Fuel x.den x.den : Int)) ≤ x then
    (log2Fuel x.num.natAbs x.num.natAbs : Int) - (log2Fuel x.den x.den : Int)
  else (log2Fuel x.num.natAbs x.num.natAbs : Int) - (log2Fuel x.den x.den : Int) - 1

/-- Rounding of an exact result to binary32: 24 significant bits, round to nearest, ties to
even (exponent range not limited). -/
def roundF32 (x : ℚ) : ℚ :=
  if x = 0 then 0 else
    (roundHalfEven (x / (2 : ℚ) ^ (ilog2 |x| - 23)) : ℚ) * (2 : ℚ) ^ (ilog2 |x| - 23)

/-- `BGR2Y`: `0.299f * pixel[2] + 0.587f * pixel[1] + 0.114f * pixel[0]`. -/
def BGR2Y (pixel : Vec3b) : ℚ :=
  (299 / 1000 : ℚ) * (pixel.v2.val : ℚ) + (587 / 1000 : ℚ) * (pixel.v1.val : ℚ)
    + (114 / 1000 : ℚ) * (pixel.v0.val : ℚ)

/-- `BGR2Cb`: `(pixel[0] - Y) * 0.564f + delta`. -/
def BGR2Cb (pixel : Vec3b) (delta : ℚ) : ℚ :=
  let Y := BGR2Y pixel
  ((pixel.v0.val : ℚ) - Y) * (564 / 1000 : ℚ) + delta

/-- `BGR2Cr`: `(pixel[2] - Y) * 0.713f + delta`. -/
def BGR2Cr (pixel : Vec3b) (delta : ℚ) : ℚ :=
  let Y := BGR2Y pixel
  ((pixel.v2.val : ℚ) - Y) * (713 / 1000 : ℚ) + delta

/-- Requirements on the library `sqrt` that the theorems below rely on: it is monotone and
exact on perfect squares of natural numbers. -/
structure SqrtSpec (sqrtf : ℚ → ℚ) : Prop where
  mono : ∀ x y : ℚ, x ≤ y → sqrtf x ≤ sqrtf y
  square : ∀ k : ℕ, sqrtf ((k : ℚ) * (k : ℚ)) = (k : ℚ)

/-- Integer square root by binary digits; `fuel` bounds the number of base-4 digits. -/
def isqrtFuel : Nat → Nat → Nat
  | 0, _ => 0
  | fuel + 1, n =>
    if n = 0 then 0
    else
      let r := isqrtFuel fuel (n / 4)
      if (2 * r + 1) * (2 * r + 1) ≤ n then 2 * r + 1 else 2 * r

/-- An executable `sqrt` for evaluation: the integer part of the square root of the integer part
of the argument. -/
def floorSqrt (x : ℚ) : ℚ :=
  (isqrtFuel ⌊x⌋₊ ⌊x⌋₊ : ℚ)

/-- A finer executable `sqrt` for evaluation: the square root rounded down to a multiple of
`2^-24`. -/
def fixSqrt (x : ℚ) : ℚ :=
  (isqrtFuel ⌊x * 281474976710656⌋₊ ⌊x * 281474976710656⌋₊ : ℚ) / 16777216

/-- State of the class `CbCrChromaKeyAlg` (its private members). -/
structure CbCrChromaKeyAlg where
  BGRKey : Vec3b
  toleranceA : Int
  toleranceB : Int
  CbKey : Int
  CrKey : Int
  delta : Int
  deriving DecidableEq, Repr

/-- Default value of the constructor argument `toleranceA`. -/
def defaultToleranceA : Int := 46210

/-- Default value of the constructor argument `toleranceB`. -/
def defaultToleranceB : Int := 46240

/-- Default value of the constructor argument `delta`. -/
def defaultDelta : Int := 128

/-- The constructor. Its initialiser list sets `BGRKey`, `toleranceA`, `toleranceB`; its body
assigns `CbKey` and `CrKey` from the argument `delta` (stores into `int` members, hence
truncated). The member `delta` is not written: it keeps the value `uninit` it held before. -/
def CbCrChromaKeyAlg.construct (uninit : Int) (BGRKey : Vec3b)
    (toleranceA toleranceB delta : Int) : CbCrChromaKeyAlg :=
  { BGRKey := BGRKey
    toleranceA := toleranceA
    toleranceB := toleranceB
    CbKey := truncToInt (BGR2Cb BGRKey (delta : ℚ))
    CrKey := truncToInt (BGR2Cr BGRKey (delta : ℚ))
    delta := uninit }

/-- `CbCrDistance`: `sqrt(deltaCb * deltaCb + deltaCr * deltaCr)` with `deltaCb = CbKey - Cb`
and `deltaCr = CrKey - Cr` (differences of `int`s, converted to `float`). -/
def CbCrChromaKeyAlg.CbCrDistance (sqrtf : ℚ → ℚ) (e : CbCrChromaKeyAlg) (Cb Cr : Int) : ℚ :=
  let deltaCb : ℚ := ((e.CbKey - Cb : Int) : ℚ)
  let deltaCr : ℚ := ((e.CrKey - Cr : Int) : ℚ)
  sqrtf (deltaCb * deltaCb + deltaCr * deltaCr)

/-- `CbCrPixelAlpha`: the three-way branch on the distance. The divisor of the ramp is the
`int` difference `toleranceB - toleranceA`, converted to `float`. -/
def CbCrChromaKeyAlg.CbCrPixelAlpha (sqrtf : ℚ → ℚ) (e : CbCrChromaKeyAlg) (Cb Cr : Int) : ℚ :=
  let distance := e.CbCrDistance sqrtf Cb Cr
  if distance < (e.toleranceA : ℚ) then 0
  else if distance < (e.toleranceB : ℚ) then
    (distance - (e.toleranceA : ℚ)) / ((wrapInt32 (e.toleranceB - e.toleranceA) : Int) : ℚ)
  else 1

/-- The `int mask` of the loop body of `applyGreenScreen`:
`Cb = (int) BGR2Cb(fgPixel, delta)`, `Cr = (int) BGR2Cr(fgPixel, delta)`,
`mask = (int) 1 - CbCrPixelAlpha(Cb, Cr)`: the `float` difference `1.0f - alpha`, rounded to
binary32, stored into an `int`. -/
def CbCrChromaKeyAlg.pixelMask (sqrtf : ℚ → ℚ) (e : CbCrChromaKeyAlg) (fgPixel : Vec3b) : Int :=
  let Cb := truncToInt (BGR2Cb fgPixel (e.delta : ℚ))
  let Cr := truncToInt (BGR2Cr fgPixel (e.delta : ℚ))
  truncToInt (roundF32 (1 - e.CbCrPixelAlpha sqrtf Cb Cr))

/-- The `int` value of one output channel before it is stored:
`std::max(fg - mask * key, 0) + mask * bkgd`. -/
def channelValue (mask : Int) (fg key bkgd : Fin 256) : Int :=
  max ((fg.val : Int) - mask * (key.val : Int)) 0 + mask * (bkgd.val : Int)

/-- The body of the inner loop of `applyGreenScreen`: the pixel written to `outputPixel`. -/
def CbCrChromaKeyAlg.applyPixel (sqrtf : ℚ → ℚ) (e : CbCrChromaKeyAlg)
    (bgkdPixel fgPixel : Vec3b) : Vec3b :=
  let mask := e.pixelMask sqrtf fgPixel
  { v0 := storeU8 (channelValue mask fgPixel.v0 e.BGRKey.v0 bgkdPixel.v0)
    v1 := storeU8 (channelValue mask fgPixel.v1 e.BGRKey.v1 bgkdPixel.v1)
    v2 := storeU8 (channelValue mask fgPixel.v2 e.BGRKey.v2 bgkdPixel.v2) }

/-- The distance that the loop body of `applyGreenScreen` computes for a foreground pixel:
`CbCrDistance(Cb, Cr)` at `Cb = (int) BGR2Cb(fgPixel, delta)`, `Cr = (int) BGR2Cr(fgPixel, delta)`,
with the member `delta`. -/
def CbCrChromaKeyAlg.pixelDistance (sqrtf : ℚ → ℚ) (e : CbCrChromaKeyAlg) (fgPixel : Vec3b) : ℚ :=
  e.CbCrDistance sqrtf (truncToInt (BGR2Cb fgPixel (e.delta : ℚ)))
    (truncToInt (BGR2Cr fgPixel (e.delta : ℚ)))

/-- The alpha that the loop body of `applyGreenScreen` computes for a foreground pixel. -/
def CbCrChromaKeyAlg.pixelAlpha (sqrtf : ℚ → ℚ) (e : CbCrChromaKeyAlg) (fgPixel : Vec3b) : ℚ :=
  e.CbCrPixelAlpha sqrtf (truncToInt (BGR2Cb fgPixel (e.delta : ℚ)))
    (truncToInt (BGR2Cr fgPixel (e.delta : ℚ)))

/-- An image `cv::Mat` of `Vec3b` pixels: `data i j` is `at<cv::Vec3b>(i, j)`. -/
structure Mat where
  rows : Nat
  cols : Nat
  data : Nat → Nat → Vec3b

/-- Write through the reference `at<cv::Vec3b>(i, j)`. -/
def Mat.set (m : Mat) (i j : Nat) (p : Vec3b) : Mat :=
  { m with data := fun i2 j2 => if i2 = i ∧ j2 = j then p else m.data i2 j2 }

/-- `applyGreenScreen`: the two nested loops over `fgImage.rows` and `fgImage.cols`, each
iteration writing one pixel of `outputImage`. -/
def CbCrChromaKeyAlg.applyGreenScreen (sqrtf : ℚ → ℚ) (e : CbCrChromaKeyAlg)
    (bkgdImage fgImage outputImage : Mat) : Mat :=
  (List.range fgImage.rows).foldl
    (fun out i =>
      (List.range fgImage.cols).foldl
        (fun out j => out.set i j (e.applyPixel sqrtf (bkgdImage.data i j) (fgImage.data i j)))
        out)
    outputImage

/-! Auxiliary facts -/

theorem chan_bounds (c : Fin 256) : (0 : ℚ) ≤ (c.val : ℚ) ∧ (c.val : ℚ) ≤ 255 := by
  have h := c.isLt
  constructor
  · exact Nat.cast_nonneg _
  · have : c.val ≤ 255 := by omega
    exact_mod_cast this

theorem BGR2Y_bounds (p : Vec3b) : 0 ≤ BGR2Y p ∧ BGR2Y p ≤ 255 := by
  obtain ⟨h0, h0u⟩ := chan_bounds p.v0
  obtain ⟨h1, h1u⟩ := chan_bounds p.v1
  obtain ⟨h2, h2u⟩ := chan_bounds p.v2
  unfold BGR2Y
  constructor <;> linarith

/-- The blue chroma offset lies within `127.5` of the bias. -/
theorem BGR2Cb_bounds (p : Vec3b) (delta : ℚ) :
    delta - 255 / 2 < BGR2Cb p delta ∧ BGR2Cb p delta < delta + 255 / 2 := by
  obtain ⟨h0, h0u⟩ := chan_bounds p.v0
  obtain ⟨h1, h1u⟩ := chan_bounds p.v1
  obtain ⟨h2, h2u⟩ := chan_bounds p.v2
  simp only [BGR2Cb, BGR2Y]
  constructor <;> linarith

/-- The red chroma offset lies within `127.5` of the bias. -/
theorem BGR2Cr_bounds (p : Vec3b) (delta : ℚ) :
    delta - 255 / 2 < BGR2Cr p delta ∧ BGR2Cr p delta < delta + 255 / 2 := by
  obtain ⟨h0, h0u⟩ := chan_bounds p.v0
  obtain ⟨h1, h1u⟩ := chan_bounds p.v1
  obtain ⟨h2, h2u⟩ := chan_bounds p.v2
  simp only [BGR2Cr, BGR2Y]
  constructor <;> linarith

theorem truncToInt_of_unit (x : ℚ) (h0 : 0 ≤ x) (h1 : x < 1) : truncToInt x = 0 := by
  unfold truncToInt
  rw [if_pos h0]
  exact Int.floor_eq_zero_iff.mpr ⟨h0, h1⟩

theorem truncToInt_one : truncToInt 1 = 1 := by
  unfold truncToInt
  norm_num

theorem truncToInt_diff_le (a b : ℚ) (n : ℤ) (hn : 0 ≤ n) (h : a - b < (n : ℚ)) :
    truncToInt a - truncToInt b ≤ n := by
  have fa := Int.floor_le a
  have fb := Int.lt_floor_add_one b
  have ca := Int.ceil_lt_add_one a
  have cb := Int.le_ceil b
  unfold truncToInt
  by_cases ha : 0 ≤ a <;> by_cases hb : 0 ≤ b
  · rw [if_pos ha, if_pos hb]
    have : ((⌊a⌋ - ⌊b⌋ : ℤ) : ℚ) < (n : ℚ) + 1 := by push_cast; linarith
    have : (⌊a⌋ - ⌊b⌋ : ℤ) < n + 1 := by exact_mod_cast this
    omega
  · rw [if_pos ha, if_neg hb]
    have : ((⌊a⌋ - ⌈b⌉ : ℤ) : ℚ) < (n : ℚ) + 1 := by push_cast; linarith
    have : (⌊a⌋ - ⌈b⌉ : ℤ) < n + 1 := by exact_mod_cast this
    omega
  · rw [if_neg ha, if_pos hb]
    have h1 : ⌈a⌉ ≤ 0 := Int.ceil_le.mpr (by push_cast; linarith [not_le.mp ha])
    have h2 : 0 ≤ ⌊b⌋ := Int.floor_nonneg.mpr hb
    omega
  · rw [if_neg ha, if_neg hb]
    have : ((⌈a⌉ - ⌈b⌉ : ℤ) : ℚ) < (n : ℚ) + 1 := by push_cast; linarith
    have : (⌈a⌉ - ⌈b⌉ : ℤ) < n + 1 := by exact_mod_cast this
    omega

theorem isqrtFuel_spec (fuel : Nat) : ∀ n : Nat, n < 4 ^ fuel →
    isqrtFuel fuel n * isqrtFuel fuel n ≤ n ∧
      n < (isqrtFuel fuel n + 1) * (isqrtFuel fuel n + 1) := by
  induction fuel with
  | zero =>
    intro n hn
    have : n = 0 := by simpa using hn
    subst this
    simp [isqrtFuel]
  | succ fuel ih =>
    intro n hn
    by_cases h0 : n = 0
    · subst h0
      simp [isqrtFuel]
    · have hq : n / 4 < 4 ^ fuel := by
        rw [pow_succ] at hn
        omega
      obtain ⟨h1, h2⟩ := ih (n / 4) hq
      simp only [isqrtFuel, if_neg h0]
      generalize isqrtFuel fuel (n / 4) = r at h1 h2 ⊢
      have hdiv : 4 * (n / 4) ≤ n := Nat.mul_div_le n 4
      have hmod : n < 4 * (n / 4) + 4 := by omega
      split_ifs with hc
      · refine ⟨hc, ?_⟩
        nlinarith
      · refine ⟨by nlinarith, by omega⟩

theorem isqrtFuel_eq_sqrt (n : Nat) : isqrtFuel n n = Nat.sqrt n := by
  have h := isqrtFuel_spec n n (Nat.lt_pow_self (by norm_num) n)
  exact Nat.eq_sqrt.mpr h

theorem floorSqrt_spec : SqrtSpec floorSqrt where
  mono := by
    intro x y hxy
    unfold floorSqrt
    rw [isqrtFuel_eq_sqrt, isqrtFuel_eq_sqrt]
    exact_mod_cast Nat.sqrt_le_sqrt (Nat.floor_mono hxy)
  square := by
    intro k
    unfold floorSqrt
    have : ⌊((k : ℚ) * (k : ℚ))⌋₊ = k * k := by
      have : ((k : ℚ) * (k : ℚ)) = ((k * k : ℕ) : ℚ) := by push_cast; ring
      rw [this, Nat.floor_natCast]
    rw [this, isqrtFuel_eq_sqrt, Nat.sqrt_eq]

theorem log2Fuel_spec (fuel : Nat) : ∀ n : Nat, 0 < n → n < 2 ^ fuel →
    2 ^ log2Fuel fuel n ≤ n ∧ n < 2 ^ (log2Fuel fuel n + 1) := by
  induction fuel with
  | zero => intro n h0 hn; simp at hn; omega
  | succ fuel ih =>
    intro n h0 hn
    by_cases h2 : n < 2
    · simp only [log2Fuel, if_pos h2]
      constructor <;> simp <;> omega
    · simp only [log2Fuel, if_neg h2]
      have hq : n / 2 < 2 ^ fuel := by rw [pow_succ] at hn; omega
      obtain ⟨h1, h3⟩ := ih (n / 2) (by omega) hq
      generalize log2Fuel fuel (n / 2) = k at h1 h3 ⊢
      rw [pow_succ] at h3 ⊢
      rw [pow_succ]
      constructor <;> omega

theorem log2Fuel_self (n : Nat) (h0 : 0 < n) :
    2 ^ log2Fuel n n ≤ n ∧ n < 2 ^ (log2Fuel n n + 1) :=
  log2Fuel_spec n n h0 (Nat.lt_pow_self (by norm_num) n)

theorem ilog2_spec (x : ℚ) (hx : 0 < x) :
    (2 : ℚ) ^ ilog2 x ≤ x ∧ x < (2 : ℚ) ^ (ilog2 x + 1) := by
  have hnum : 0 < x.num := Rat.num_pos.mpr hx
  have hp : 0 < x.num.natAbs := Int.natAbs_pos.mpr hnum.ne'
  have hd : 0 < x.den := x.den_pos
  obtain ⟨pa, pb⟩ := log2Fuel_self x.num.natAbs hp
  obtain ⟨da, db⟩ := log2Fuel_self x.den hd
  have hxe : x = (x.num.natAbs : ℚ) / (x.den : ℚ) := by
    have h1 : ((x.num.natAbs : Int) : ℚ) = (x.num : ℚ) := by
      rw [Int.natAbs_of_nonneg hnum.le]
    have h2 : ((x.num.natAbs : Int) : ℚ) = (x.num.natAbs : ℚ) := Int.cast_natCast _
    rw [← h2, h1, Rat.num_div_den]
  unfold ilog2
  generalize log2Fuel x.num.natAbs x.num.natAbs = a at pa pb ⊢
  generalize log2Fuel x.den x.den = b at da db ⊢
  generalize x.num.natAbs = p at hp pa pb hxe
  generalize x.den = d at hd da db hxe
  have hdq : (0 : ℚ) < (d : ℚ) := by exact_mod_cast hd
  have pa' : (2 : ℚ) ^ a ≤ (p : ℚ) := by exact_mod_cast pa
  have pb' : (p : ℚ) < (2 : ℚ) ^ (a + 1) := by exact_mod_cast pb
  have da' : (2 : ℚ) ^ b ≤ (d : ℚ) := by exact_mod_cast da
  have db' : (d : ℚ) < (2 : ℚ) ^ (b + 1) := by exact_mod_cast db
  have h2b : (0 : ℚ) < (2 : ℚ) ^ b := by positivity
  have e1 : (2 : ℚ) ^ ((a : Int) - (b : Int) + 1) = (2 : ℚ) ^ (a + 1) / (2 : ℚ) ^ b := by
    have : ((a : Int) - (b : Int) + 1) = ((a + 1 : ℕ) : Int) - ((b : ℕ) : Int) := by
      push_cast; ring
    rw [this, zpow_sub₀ (two_ne_zero), zpow_natCast, zpow_natCast]
  have e2 : (2 : ℚ) ^ ((a : Int) - (b : Int) - 1) = (2 : ℚ) ^ a / (2 : ℚ) ^ (b + 1) := by
    have : ((a : Int) - (b : Int) - 1) = ((a : ℕ) : Int) - ((b + 1 : ℕ) : Int) := by
      push_cast; ring
    rw [this, zpow_sub₀ (two_ne_zero), zpow_natCast, zpow_natCast]
  have hup : x < (2 : ℚ) ^ ((a : Int) - (b : Int) + 1) := by
    rw [e1, hxe, div_lt_div_iff₀ hdq h2b]
    calc (p : ℚ) * 2 ^ b < 2 ^ (a + 1) * 2 ^ b := by
          exact mul_lt_mul_of_pos_right pb' h2b
      _ ≤ 2 ^ (a + 1) * (d : ℚ) := by
          exact mul_le_mul_of_nonneg_left da' (by positivity)
  have hlo : (2 : ℚ) ^ ((a : Int) - (b : Int) - 1) ≤ x := by
    rw [e2, hxe, div_le_div_iff₀ (by positivity) hdq]
    calc (2 : ℚ) ^ a * (d : ℚ) ≤ 2 ^ a * 2 ^ (b + 1) := by
          exact mul_le_mul_of_nonneg_left db'.le (by positivity)
      _ ≤ (p : ℚ) * 2 ^ (b + 1) := by
          exact mul_le_mul_of_nonneg_right pa' (by positivity)
  split_ifs with hc
  · exact ⟨hc, hup⟩
  · refine ⟨hlo, ?_⟩
    have : ((a : Int) - (b : Int) - 1 + 1) = (a : Int) - (b : Int) := by ring
    rw [this]
    exact not_le.mp hc

theorem ilog2_unique (x : ℚ) (k : Int) (h1 : (2 : ℚ) ^ k ≤ x) (h2 : x < (2 : ℚ) ^ (k + 1)) :
    ilog2 x = k := by
  have hx : 0 < x := lt_of_lt_of_le (by positivity) h1
  obtain ⟨s1, s2⟩ := ilog2_spec x hx
  have a1 : (2 : ℚ) ^ k < (2 : ℚ) ^ (ilog2 x + 1) := lt_of_le_of_lt h1 s2
  have a2 : (2 : ℚ) ^ ilog2 x < (2 : ℚ) ^ (k + 1) := lt_of_le_of_lt s1 h2
  have b1 := (zpow_lt_zpow_iff_right₀ (by norm_num : (1 : ℚ) < 2)).mp a1
  have b2 := (zpow_lt_zpow_iff_right₀ (by norm_num : (1 : ℚ) < 2)).mp a2
  omega
theorem roundHalfEven_bounds (z : ℚ) : ⌊z⌋ ≤ roundHalfEven z ∧ roundHalfEven z ≤ ⌊z⌋ + 1 := by
  unfold roundHalfEven
  split_ifs <;> constructor <;> omega

theorem roundHalfEven_top (z : ℚ) (N : Int) (hN : N % 2 = 0) (h1 : (N : ℚ) - 1 / 2 ≤ z)
    (h2 : z < (N : ℚ)) : roundHalfEven z = N := by
  have hf : ⌊z⌋ = N - 1 := by
    rw [Int.floor_eq_iff]
    push_cast
    constructor <;> linarith
  unfold roundHalfEven
  rw [hf]
  have hfr : ¬ (z - ((N - 1 : Int) : ℚ) < 1 / 2) := by push_cast; linarith
  rw [if_neg hfr]
  split_ifs <;> omega

theorem roundHalfEven_below (z : ℚ) (N : Int) (h : z < (N : ℚ) - 1 / 2) :
    roundHalfEven z ≤ N - 1 := by
  have hfl : ⌊z⌋ ≤ N - 1 := by
    have : ⌊z⌋ < N := Int.floor_lt.mpr (by linarith)
    omega
  have hb := (roundHalfEven_bounds z).2
  by_cases hc : ⌊z⌋ = N - 1
  · unfold roundHalfEven
    rw [if_pos]
    · omega
    · rw [hc]; push_cast; linarith
  · omega

/-- For a value in `[0,1]`, rounding to binary32 and truncating gives 1 exactly from
`1 - 2^-25` on, and 0 below. -/
theorem trunc_roundF32_unit (y : ℚ) (h0 : 0 ≤ y) (h1 : y ≤ 1) :
    truncToInt (roundF32 y) = if 1 - 1 / 2 ^ 25 ≤ y then 1 else 0 := by
  rcases eq_or_lt_of_le h0 with hz | hpos
  · subst hz
    have : roundF32 0 = 0 := by decide!
    rw [this, if_neg (by norm_num)]
    exact truncToInt_of_unit 0 (le_refl _) (by norm_num)
  rcases eq_or_lt_of_le h1 with ho | hlt
  · subst ho
    have : roundF32 1 = 1 := by decide!
    rw [this, if_pos (by norm_num), truncToInt_one]
  have hne : y ≠ 0 := hpos.ne'
  have habs : |y| = y := abs_of_pos hpos
  by_cases hhalf : y < 1 / 2
  · rw [if_neg (by linarith [show (1:ℚ) / 2 ^ 25 < 1 / 2 by norm_num])]
    apply truncToInt_of_unit
    · simp only [roundF32, if_neg hne, habs]
      have hq : (0 : ℚ) < (2 : ℚ) ^ (ilog2 y - 23) := by positivity
      have hfl : 0 ≤ ⌊y / (2 : ℚ) ^ (ilog2 y - 23)⌋ :=
        Int.floor_nonneg.mpr (div_nonneg h0 hq.le)
      have hb := (roundHalfEven_bounds (y / (2 : ℚ) ^ (ilog2 y - 23))).1
      have : (0 : ℚ) ≤ (roundHalfEven (y / (2 : ℚ) ^ (ilog2 y - 23)) : ℚ) := by
        exact_mod_cast le_trans hfl hb
      exact mul_nonneg this hq.le
    · simp only [roundF32, if_neg hne, habs]
      obtain ⟨s1, _⟩ := ilog2_spec y hpos
      have hq : (0 : ℚ) < (2 : ℚ) ^ (ilog2 y - 23) := by positivity
      have hqe : (2 : ℚ) ^ (ilog2 y - 23) = (2 : ℚ) ^ ilog2 y / 2 ^ 23 := by
        rw [zpow_sub₀ (two_ne_zero)]; norm_num
      have hqle : (2 : ℚ) ^ (ilog2 y - 23) ≤ y / 2 ^ 23 := by
        rw [hqe]; exact div_le_div_of_nonneg_right s1 (by positivity)
      have hb := (roundHalfEven_bounds (y / (2 : ℚ) ^ (ilog2 y - 23))).2
      have hb' : (roundHalfEven (y / (2 : ℚ) ^ (ilog2 y - 23)) : ℚ)
          ≤ y / (2 : ℚ) ^ (ilog2 y - 23) + 1 := by
        have h3 : (roundHalfEven (y / (2 : ℚ) ^ (ilog2 y - 23)) : ℚ)
            ≤ ((⌊y / (2 : ℚ) ^ (ilog2 y - 23)⌋ + 1 : Int) : ℚ) := by exact_mod_cast hb
        have h4 := Int.floor_le (y / (2 : ℚ) ^ (ilog2 y - 23))
        push_cast at h3
        linarith
      calc (roundHalfEven (y / (2 : ℚ) ^ (ilog2 y - 23)) : ℚ) * (2 : ℚ) ^ (ilog2 y - 23)
          ≤ (y / (2 : ℚ) ^ (ilog2 y - 23) + 1) * (2 : ℚ) ^ (ilog2 y - 23) :=
            mul_le_mul_of_nonneg_right hb' hq.le
        _ = y + (2 : ℚ) ^ (ilog2 y - 23) := by field_simp
        _ ≤ y + y / 2 ^ 23 := by linarith
        _ < 1 := by
            have : y / 2 ^ 23 ≤ y := div_le_self h0 (by norm_num)
            linarith
  · have hge : (1 : ℚ) / 2 ≤ y := not_lt.mp hhalf
    have hlog : ilog2 y = -1 := by
      apply ilog2_unique
      · norm_num; linarith
      · norm_num; exact hlt
    have hqv : (2 : ℚ) ^ ((-1 : Int) - 23) = 1 / 16777216 := by norm_num [zpow_neg]
    simp only [roundF32, if_neg hne, habs, hlog, hqv]
    have hz : y / (1 / 16777216) = y * 16777216 := by field_simp
    rw [hz]
    split_ifs with hc
    · have hr : roundHalfEven (y * 16777216) = 16777216 := by
        apply roundHalfEven_top _ 16777216 (by norm_num)
        · push_cast; norm_num at hc; linarith
        · push_cast; linarith
      rw [hr]
      norm_num
      exact truncToInt_one
    · have hr : roundHalfEven (y * 16777216) ≤ 16777216 - 1 := by
        apply roundHalfEven_below
        push_cast; norm_num at hc; linarith
      have hfl : 0 ≤ ⌊y * 16777216⌋ := Int.floor_nonneg.mpr (by positivity)
      have hb := (roundHalfEven_bounds (y * 16777216)).1
      have r0 : (0 : ℚ) ≤ (roundHalfEven (y * 16777216) : ℚ) := by
        exact_mod_cast le_trans hfl hb
      have r1 : (roundHalfEven (y * 16777216) : ℚ) ≤ 16777215 := by exact_mod_cast hr
      apply truncToInt_of_unit
      · positivity
      · linarith

theorem wrapInt32_of_fit (x : Int) (h0 : 0 ≤ x) (h1 : x ≤ 2147483647) : wrapInt32 x = x := by
  unfold wrapInt32
  omega

theorem fixSqrt_spec : SqrtSpec fixSqrt where
  mono := by
    intro x y hxy
    unfold fixSqrt
    rw [isqrtFuel_eq_sqrt, isqrtFuel_eq_sqrt]
    apply div_le_div_of_nonneg_right _ (by norm_num)
    have : x * 281474976710656 ≤ y * 281474976710656 :=
      mul_le_mul_of_nonneg_right hxy (by norm_num)
    exact_mod_cast Nat.sqrt_le_sqrt (Nat.floor_mono this)
  square := by
    intro k
    unfold fixSqrt
    have : ⌊((k : ℚ) * (k : ℚ)) * 281474976710656⌋₊ = (k * 16777216) * (k * 16777216) := by
      have : ((k : ℚ) * (k : ℚ)) * 281474976710656
          = (((k * 16777216) * (k * 16777216) : ℕ) : ℚ) := by push_cast; ring
      rw [this, Nat.floor_natCast]
    rw [this, isqrtFuel_eq_sqrt, Nat.sqrt_eq]
    push_cast
    field_simp

/-- When the `int` difference `toleranceB - toleranceA` does not overflow, the value returned
by `CbCrPixelAlpha` lies in `[0,1]`. -/
theorem alpha_bounds (sqrtf : ℚ → ℚ) (e : CbCrChromaKeyAlg) (Cb Cr : Int)
    (hfit : e.toleranceB - e.toleranceA ≤ 2147483647) :
    0 ≤ e.CbCrPixelAlpha sqrtf Cb Cr ∧ e.CbCrPixelAlpha sqrtf Cb Cr ≤ 1 := by
  simp only [CbCrChromaKeyAlg.CbCrPixelAlpha]
  generalize e.CbCrDistance sqrtf Cb Cr = d
  split_ifs with h1 h2
  · exact ⟨le_refl _, zero_le_one⟩
  · have hA : (e.toleranceA : ℚ) ≤ d := not_lt.mp h1
    have hAB : (e.toleranceA : ℚ) < (e.toleranceB : ℚ) := lt_of_le_of_lt hA h2
    have hABi : e.toleranceA < e.toleranceB := by exact_mod_cast hAB
    rw [wrapInt32_of_fit _ (by omega) hfit]
    have hpos : (0 : ℚ) < ((e.toleranceB - e.toleranceA : Int) : ℚ) := by
      push_cast; linarith
    constructor
    · exact div_nonneg (by linarith) hpos.le
    · rw [div_le_one hpos]
      push_cast; linarith
  · exact ⟨zero_le_one, le_refl _⟩

/-- When the `int` difference `toleranceB - toleranceA` does not overflow, the mask is `1` when
alpha is at most `2^-25` and `0` otherwise. -/
theorem pixelMask_eq (sqrtf : ℚ → ℚ) (e : CbCrChromaKeyAlg) (F : Vec3b)
    (hfit : e.toleranceB - e.toleranceA ≤ 2147483647) :
    e.pixelMask sqrtf F =
      if e.CbCrPixelAlpha sqrtf (truncToInt (BGR2Cb F (e.delta : ℚ)))
          (truncToInt (BGR2Cr F (e.delta : ℚ))) ≤ 1 / 2 ^ 25 then 1 else 0 := by
  simp only [CbCrChromaKeyAlg.pixelMask]
  obtain ⟨h0, h1⟩ := alpha_bounds sqrtf e (truncToInt (BGR2Cb F (e.delta : ℚ)))
    (truncToInt (BGR2Cr F (e.delta : ℚ))) hfit
  generalize e.CbCrPixelAlpha sqrtf _ _ = a at h0 h1 ⊢
  rw [trunc_roundF32_unit (1 - a) (by linarith) (by linarith)]
  by_cases hc : a ≤ 1 / 2 ^ 25
  · rw [if_pos hc, if_pos (by linarith)]
  · rw [if_neg hc, if_neg (by intro h; exact hc (by linarith))]

theorem storeU8_val (c : Fin 256) : storeU8 (c.val : Int) = c := by
  apply Fin.ext
  have h := c.isLt
  simp only [storeU8]
  omega

theorem channelValue_zero (fg key bkgd : Fin 256) :
    channelValue 0 fg key bkgd = (fg.val : Int) := by
  simp [channelValue]

theorem channelValue_one (fg key bkgd : Fin 256) :
    channelValue 1 fg key bkgd = max ((fg.val : Int) - (key.val : Int)) 0 + (bkgd.val : Int) := by
  simp [channelValue]

/-- With mask `0` the pixel written is the foreground pixel. -/
theorem applyPixel_of_mask_zero (sqrtf : ℚ → ℚ) (e : CbCrChromaKeyAlg) (B F : Vec3b)
    (h : e.pixelMask sqrtf F = 0) : e.applyPixel sqrtf B F = F := by
  simp only [CbCrChromaKeyAlg.applyPixel, h, channelValue_zero, storeU8_val]

theorem channelValue_bounds (m : Int) (hm : m = 0 ∨ m = 1) (fg key bkgd : Fin 256) :
    0 ≤ channelValue m fg key bkgd ∧ channelValue m fg key bkgd ≤ 510 := by
  have h1 := fg.isLt
  have h2 := key.isLt
  have h3 := bkgd.isLt
  rcases hm with hm | hm <;> subst hm
  · rw [channelValue_zero]; omega
  · rw [channelValue_one]; omega

theorem storeU8_val_eq (x : Int) : ((storeU8 x).val : Int) = x % 256 := by
  simp only [storeU8]
  omega

/-- With mask `1` each channel written is `max(fg - key, 0) + bkgd` reduced modulo 256. -/
theorem applyPixel_of_mask_one (sqrtf : ℚ → ℚ) (e : CbCrChromaKeyAlg) (B F : Vec3b)
    (h : e.pixelMask sqrtf F = 1) :
    e.applyPixel sqrtf B F =
      { v0 := storeU8 (max ((F.v0.val : Int) - (e.BGRKey.v0.val : Int)) 0 + (B.v0.val : Int))
        v1 := storeU8 (max ((F.v1.val : Int) - (e.BGRKey.v1.val : Int)) 0 + (B.v1.val : Int))
        v2 := storeU8 (max ((F.v2.val : Int) - (e.BGRKey.v2.val : Int)) 0 + (B.v2.val : Int)) } := by
  simp only [CbCrChromaKeyAlg.applyPixel, h, channelValue_one]

theorem storeU8_max_of_le (f k b : Fin 256) (h : f ≤ k) :
    storeU8 (max ((f.val : Int) - (k.val : Int)) 0 + (b.val : Int)) = b := by
  have hle : f.val ≤ k.val := h
  have : max ((f.val : Int) - (k.val : Int)) 0 = 0 := by omega
  rw [this, zero_add, storeU8_val]

/-- A distance below `toleranceA` gives mask `1`. -/
theorem pixelMask_of_near (sqrtf : ℚ → ℚ) (e : CbCrChromaKeyAlg) (F : Vec3b)
    (hd : e.pixelDistance sqrtf F < (e.toleranceA : ℚ)) : e.pixelMask sqrtf F = 1 := by
  simp only [CbCrChromaKeyAlg.pixelDistance] at hd
  have h1 : roundF32 1 = 1 := by decide!
  simp only [CbCrChromaKeyAlg.pixelMask, CbCrChromaKeyAlg.CbCrPixelAlpha, if_pos hd, sub_zero,
    h1, truncToInt_one]

/-- A distance of at least `toleranceB`, with `toleranceA < toleranceB`, gives mask `0`. -/
theorem pixelMask_of_far (sqrtf : ℚ → ℚ) (e : CbCrChromaKeyAlg) (F : Vec3b)
    (h : e.toleranceA < e.toleranceB)
    (hd : (e.toleranceB : ℚ) ≤ e.pixelDistance sqrtf F) : e.pixelMask sqrtf F = 0 := by
  have hAB : (e.toleranceA : ℚ) < (e.toleranceB : ℚ) := by exact_mod_cast h
  simp only [CbCrChromaKeyAlg.pixelDistance] at hd
  have h1 : ¬ e.CbCrDistance sqrtf (truncToInt (BGR2Cb F (e.delta : ℚ)))
      (truncToInt (BGR2Cr F (e.delta : ℚ))) < (e.toleranceA : ℚ) := not_lt.mpr (by linarith)
  have h0 : roundF32 0 = 0 := by decide!
  simp only [CbCrChromaKeyAlg.pixelMask, CbCrChromaKeyAlg.CbCrPixelAlpha, if_neg h1,
    if_neg (not_lt.mpr hd), sub_self, h0]
  exact truncToInt_of_unit 0 (le_refl _) (by norm_num)

/-- Two truncated chroma values computed with one bias differ by at most 255. -/
theorem trunc_chroma_diff (x y delta : ℚ)
    (hx : delta - 255 / 2 < x ∧ x < delta + 255 / 2)
    (hy : delta - 255 / 2 < y ∧ y < delta + 255 / 2) :
    -255 ≤ truncToInt x - truncToInt y ∧ truncToInt x - truncToInt y ≤ 255 := by
  have h1 := truncToInt_diff_le x y 255 (by norm_num) (by push_cast; linarith [hx.2, hy.1])
  have h2 := truncToInt_diff_le y x 255 (by norm_num) (by push_cast; linarith [hx.1, hy.2])
  constructor <;> omega

/-- When the member `delta` holds the bias the keys were computed with, the distance of any
pixel from the key is at most 361. -/
theorem pixelDistance_le (sqrtf : ℚ → ℚ) (hs : SqrtSpec sqrtf) (K F : Vec3b)
    (tA tB bias : Int) :
    (CbCrChromaKeyAlg.construct bias K tA tB bias).pixelDistance sqrtf F ≤ 361 := by
  simp only [CbCrChromaKeyAlg.pixelDistance, CbCrChromaKeyAlg.CbCrDistance,
    CbCrChromaKeyAlg.construct]
  obtain ⟨b1, b2⟩ := trunc_chroma_diff _ _ _ (BGR2Cb_bounds K (bias : ℚ))
    (BGR2Cb_bounds F (bias : ℚ))
  obtain ⟨r1, r2⟩ := trunc_chroma_diff _ _ _ (BGR2Cr_bounds K (bias : ℚ))
    (BGR2Cr_bounds F (bias : ℚ))
  generalize truncToInt (BGR2Cb K (bias : ℚ)) - truncToInt (BGR2Cb F (bias : ℚ)) = x at b1 b2 ⊢
  generalize truncToInt (BGR2Cr K (bias : ℚ)) - truncToInt (BGR2Cr F (bias : ℚ)) = y at r1 r2 ⊢
  have hx : x * x ≤ 65025 := by nlinarith
  have hy : y * y ≤ 65025 := by nlinarith
  have hsum : ((x : ℚ) * (x : ℚ) + (y : ℚ) * (y : ℚ)) ≤ ((361 : ℕ) : ℚ) * ((361 : ℕ) : ℚ) := by
    have : x * x + y * y ≤ 361 * 361 := by omega
    exact_mod_cast this
  have hm := hs.mono _ _ hsum
  rw [hs.square 361] at hm
  exact_mod_cast hm

/-- When the member `delta` holds the bias the keys were computed with, a foreground pixel equal
to the key colour is written as the background pixel, for thresholds `0 < toleranceA`. -/
theorem key_pixel_of_delta_eq (sqrtf : ℚ → ℚ) (hs : SqrtSpec sqrtf) (K B : Vec3b)
    (tA tB bias : Int) (hA : 0 < tA) :
    (CbCrChromaKeyAlg.construct bias K tA tB bias).applyPixel sqrtf B K = B := by
  have hd : (CbCrChromaKeyAlg.construct bias K tA tB bias).pixelDistance sqrtf K
      < (((CbCrChromaKeyAlg.construct bias K tA tB bias).toleranceA : Int) : ℚ) := by
    have h0 := hs.square 0
    simp only [CbCrChromaKeyAlg.pixelDistance, CbCrChromaKeyAlg.CbCrDistance,
      CbCrChromaKeyAlg.construct, sub_self, Int.cast_zero, mul_zero, add_zero]
    simp only [Nat.cast_zero, mul_zero] at h0
    rw [h0]
    exact_mod_cast hA
  rw [applyPixel_of_mask_one sqrtf _ B K (pixelMask_of_near sqrtf _ K hd)]
  simp only [CbCrChromaKeyAlg.construct, sub_self, max_self, zero_add, storeU8_val]

/-- The inner loop writes exactly the pixels of row `i` at the columns it visits. -/
theorem foldl_set_cols (g : Nat → Vec3b) (i : Nat) (js : List Nat) :
    ∀ out : Mat,
      (js.foldl (fun o j => o.set i j (g j)) out).rows = out.rows ∧
      (js.foldl (fun o j => o.set i j (g j)) out).cols = out.cols ∧
      ∀ i2 j2, (js.foldl (fun o j => o.set i j (g j)) out).data i2 j2 =
        if i2 = i ∧ j2 ∈ js then g j2 else out.data i2 j2 := by
  induction js with
  | nil => intro out; simp
  | cons j js ih =>
    intro out
    obtain ⟨hr, hc, hd⟩ := ih (out.set i j (g j))
    simp only [List.foldl_cons]
    refine ⟨by rw [hr]; rfl, by rw [hc]; rfl, ?_⟩
    intro i2 j2
    rw [hd i2 j2]
    simp only [Mat.set, List.mem_cons]
    by_cases h1 : i2 = i <;> by_cases h2 : j2 ∈ js <;> by_cases h3 : j2 = j <;> simp [h1, h2, h3]

/-- The two nested loops write exactly the pixels at the visited rows and columns. -/
theorem foldl_set_rows (g : Nat → Nat → Vec3b) (js : List Nat) (is : List Nat) :
    ∀ out : Mat,
      (is.foldl (fun o i => js.foldl (fun o j => o.set i j (g i j)) o) out).rows = out.rows ∧
      (is.foldl (fun o i => js.foldl (fun o j => o.set i j (g i j)) o) out).cols = out.cols ∧
      ∀ i2 j2, (is.foldl (fun o i => js.foldl (fun o j => o.set i j (g i j)) o) out).data i2 j2 =
        if i2 ∈ is ∧ j2 ∈ js then g i2 j2 else out.data i2 j2 := by
  induction is with
  | nil => intro out; simp
  | cons i is ih =>
    intro out
    obtain ⟨hr, hc, hd⟩ := ih (js.foldl (fun o j => o.set i j (g i j)) out)
    obtain ⟨hr1, hc1, hd1⟩ := foldl_set_cols (g i) i js out
    simp only [List.foldl_cons]
    refine ⟨by rw [hr, hr1], by rw [hc, hc1], ?_⟩
    intro i2 j2
    rw [hd i2 j2, hd1 i2 j2]
    simp only [List.mem_cons]
    by_cases h1 : i2 = i <;> by_cases h2 : i2 ∈ is <;> by_cases h3 : j2 ∈ js <;>
      simp [h1, h2, h3]

/-- Pointwise description of `applyGreenScreen`: the output keeps its dimensions, every
position inside the foreground's dimensions holds the composited pixel, every other position
is untouched. -/
theorem applyGreenScreen_data (sqrtf : ℚ → ℚ) (e : CbCrChromaKeyAlg) (bkgd fg out : Mat) :
    (e.applyGreenScreen sqrtf bkgd fg out).rows = out.rows ∧
    (e.applyGreenScreen sqrtf bkgd fg out).cols = out.cols ∧
    ∀ i j, (e.applyGreenScreen sqrtf bkgd fg out).data i j =
      if i < fg.rows ∧ j < fg.cols then e.applyPixel sqrtf (bkgd.data i j) (fg.data i j)
      else out.data i j := by
  obtain ⟨hr, hc, hd⟩ := foldl_set_rows
    (fun i j => e.applyPixel sqrtf (bkgd.data i j) (fg.data i j))
    (List.range fg.cols) (List.range fg.rows) out
  refine ⟨hr, hc, ?_⟩
  intro i j
  have := hd i j
  simp only [List.mem_range] at this
  exact this

/-! Claims -/

/-- C3: for an engine with `toleranceA < toleranceB`, a foreground pixel whose chrominance
distance from the key exceeds `toleranceB` is written unchanged, for every background pixel; and
when every pixel of the foreground image is such, every position of the output inside the
foreground's dimensions holds the foreground pixel (the output keeping its own dimensions). -/
theorem confident_foreground_unchanged (sqrtf : ℚ → ℚ) (e : CbCrChromaKeyAlg)
    (h : e.toleranceA < e.toleranceB) :
    (∀ B F : Vec3b, (e.toleranceB : ℚ) < e.pixelDistance sqrtf F → e.applyPixel sqrtf B F = F) ∧
    (∀ bkgd fg out : Mat,
      (∀ i j, i < fg.rows → j < fg.cols →
        (e.toleranceB : ℚ) < e.pixelDistance sqrtf (fg.data i j)) →
      (e.applyGreenScreen sqrtf bkgd fg out).rows = out.rows ∧
      (e.applyGreenScreen sqrtf bkgd fg out).cols = out.cols ∧
      ∀ i j, i < fg.rows → j < fg.cols →
        (e.applyGreenScreen sqrtf bkgd fg out).data i j = fg.data i j) := by
  have hpix : ∀ B F : Vec3b, (e.toleranceB : ℚ) < e.pixelDistance sqrtf F →
      e.applyPixel sqrtf B F = F := by
    intro B F hd
    exact applyPixel_of_mask_zero sqrtf e B F (pixelMask_of_far sqrtf e F h hd.le)
  refine ⟨hpix, ?_⟩
  intro bkgd fg out hall
  obtain ⟨hr, hc, hdata⟩ := applyGreenScreen_data sqrtf e bkgd fg out
  refine ⟨hr, hc, ?_⟩
  intro i j hi hj
  rw [hdata i j, if_pos ⟨hi, hj⟩]
  exact hpix _ _ (hall i j hi hj)

/-- C3, evaluated: thresholds 10 < 20, key `(26,255,83)`; the white pixel lies at distance 109
and is written unchanged over the background pixel `(7,8,9)`. -/
theorem confident_foreground_unchanged_witness :
    (20 : ℚ) < (CbCrChromaKeyAlg.construct 128 ⟨26, 255, 83⟩ 10 20 128).pixelDistance floorSqrt
        ⟨255, 255, 255⟩ ∧
    (CbCrChromaKeyAlg.construct 128 ⟨26, 255, 83⟩ 10 20 128).applyPixel floorSqrt
        ⟨7, 8, 9⟩ ⟨255, 255, 255⟩ = ⟨255, 255, 255⟩ :=
  ⟨by decide!,
    (confident_foreground_unchanged floorSqrt
      (CbCrChromaKeyAlg.construct 128 ⟨26, 255, 83⟩ 10 20 128) (by decide)).1
      ⟨7, 8, 9⟩ ⟨255, 255, 255⟩ (by decide!)⟩

/-- C4 (as stated, refuted): key `(26,255,83)`, thresholds 46210 < 46240, bias 128; the
foreground pixel `(30,250,90)` lies at distance 5 < 46210 from the key, and over the background
pixel `(10,20,30)` it is written as `(14,20,37)`, not as the background pixel. -/
theorem fully_keyed_counterexample :
    (CbCrChromaKeyAlg.construct 128 ⟨26, 255, 83⟩ 46210 46240 128).pixelDistance floorSqrt
        ⟨30, 250, 90⟩ < 46210 ∧
    (CbCrChromaKeyAlg.construct 128 ⟨26, 255, 83⟩ 46210 46240 128).pixelMask floorSqrt
        ⟨30, 250, 90⟩ = 1 ∧
    (CbCrChromaKeyAlg.construct 128 ⟨26, 255, 83⟩ 46210 46240 128).applyPixel floorSqrt
        ⟨10, 20, 30⟩ ⟨30, 250, 90⟩ = ⟨14, 20, 37⟩ ∧
    (CbCrChromaKeyAlg.construct 128 ⟨26, 255, 83⟩ 46210 46240 128).applyPixel floorSqrt
        ⟨10, 20, 30⟩ ⟨30, 250, 90⟩ ≠ ⟨10, 20, 30⟩ := by
  decide!

/-- C4 (amended): for a foreground pixel whose chrominance distance from the key is less than
`toleranceA`, each channel written is `max(F_c - Key_c, 0) + B_c` reduced modulo 256; it equals
the background channel `B_c` on every channel where `F_c ≤ Key_c`. -/
theorem fully_keyed_pixel (sqrtf : ℚ → ℚ) (e : CbCrChromaKeyAlg) (B F : Vec3b)
    (hd : e.pixelDistance sqrtf F < (e.toleranceA : ℚ)) :
    e.applyPixel sqrtf B F =
      { v0 := storeU8 (max ((F.v0.val : Int) - (e.BGRKey.v0.val : Int)) 0 + (B.v0.val : Int))
        v1 := storeU8 (max ((F.v1.val : Int) - (e.BGRKey.v1.val : Int)) 0 + (B.v1.val : Int))
        v2 := storeU8 (max ((F.v2.val : Int) - (e.BGRKey.v2.val : Int)) 0 + (B.v2.val : Int)) } ∧
    (F.v0 ≤ e.BGRKey.v0 → (e.applyPixel sqrtf B F).v0 = B.v0) ∧
    (F.v1 ≤ e.BGRKey.v1 → (e.applyPixel sqrtf B F).v1 = B.v1) ∧
    (F.v2 ≤ e.BGRKey.v2 → (e.applyPixel sqrtf B F).v2 = B.v2) := by
  have h := applyPixel_of_mask_one sqrtf e B F (pixelMask_of_near sqrtf e F hd)
  refine ⟨h, ?_, ?_, ?_⟩ <;> intro hle <;> rw [h] <;> exact storeU8_max_of_le _ _ _ hle

/-- C4 (amended), evaluated: key `(26,255,83)`, foreground `(20,250,80)` at distance √2,
background `(10,20,30)`: every channel is at most the key's, the pixel written is the
background pixel. -/
theorem fully_keyed_pixel_witness :
    (CbCrChromaKeyAlg.construct 128 ⟨26, 255, 83⟩ 46210 46240 128).applyPixel floorSqrt
        ⟨10, 20, 30⟩ ⟨20, 250, 80⟩ = ⟨10, 20, 30⟩ := by
  have h := fully_keyed_pixel floorSqrt
    (CbCrChromaKeyAlg.construct 128 ⟨26, 255, 83⟩ 46210 46240 128) ⟨10, 20, 30⟩ ⟨20, 250, 80⟩
    (by decide!)
  rw [h.1]
  decide!

/-- C5 (as stated, refuted): key `(0,0,0)`, thresholds 5 < 10, bias 128; for the white
foreground pixel the mask is 1, and over a white background pixel the value
`max(255 - 1*0, 0) + 1*255 = 510` exceeds 255 and is stored as `510 mod 256 = 254`. With key
`(26,255,83)` and thresholds `-2000000000 < 2000000000`, whose 32-bit difference overflows, the
mask of the white pixel is 7 and the blue channel value is `max(255 - 7*26, 0) + 7*255 = 1858`. -/
theorem channel_range_counterexample :
    (CbCrChromaKeyAlg.construct 128 ⟨0, 0, 0⟩ 5 10 128).pixelMask floorSqrt ⟨255, 255, 255⟩ = 1 ∧
    channelValue
      ((CbCrChromaKeyAlg.construct 128 ⟨0, 0, 0⟩ 5 10 128).pixelMask floorSqrt ⟨255, 255, 255⟩)
      255 0 255 = 510 ∧
    (CbCrChromaKeyAlg.construct 128 ⟨0, 0, 0⟩ 5 10 128).applyPixel floorSqrt
        ⟨255, 255, 255⟩ ⟨255, 255, 255⟩ = ⟨254, 254, 254⟩ ∧
    (CbCrChromaKeyAlg.construct 128 ⟨26, 255, 83⟩ (-2000000000) 2000000000 128).pixelMask
        floorSqrt ⟨255, 255, 255⟩ = 7 ∧
    channelValue
      ((CbCrChromaKeyAlg.construct 128 ⟨26, 255, 83⟩ (-2000000000) 2000000000 128).pixelMask
        floorSqrt ⟨255, 255, 255⟩)
      255 26 255 = 1858 := by
  decide!

/-- C5 (amended): for every engine whose threshold difference `toleranceB - toleranceA` fits a
32-bit `int` and every pair of pixels, the mask is `0` or `1`; each channel written is
`max(F_c - mask*Key_c, 0) + mask*B_c` reduced modulo 256, and that value lies in `[0,510]`. -/
theorem channel_formula_range (sqrtf : ℚ → ℚ) (e : CbCrChromaKeyAlg) (B F : Vec3b)
    (hfit : e.toleranceB - e.toleranceA ≤ 2147483647) :
    (e.pixelMask sqrtf F = 0 ∨ e.pixelMask sqrtf F = 1) ∧
    (((e.applyPixel sqrtf B F).v0.val : Int) =
        channelValue (e.pixelMask sqrtf F) F.v0 e.BGRKey.v0 B.v0 % 256 ∧
      0 ≤ channelValue (e.pixelMask sqrtf F) F.v0 e.BGRKey.v0 B.v0 ∧
      channelValue (e.pixelMask sqrtf F) F.v0 e.BGRKey.v0 B.v0 ≤ 510) ∧
    (((e.applyPixel sqrtf B F).v1.val : Int) =
        channelValue (e.pixelMask sqrtf F) F.v1 e.BGRKey.v1 B.v1 % 256 ∧
      0 ≤ channelValue (e.pixelMask sqrtf F) F.v1 e.BGRKey.v1 B.v1 ∧
      channelValue (e.pixelMask sqrtf F) F.v1 e.BGRKey.v1 B.v1 ≤ 510) ∧
    (((e.applyPixel sqrtf B F).v2.val : Int) =
        channelValue (e.pixelMask sqrtf F) F.v2 e.BGRKey.v2 B.v2 % 256 ∧
      0 ≤ channelValue (e.pixelMask sqrtf F) F.v2 e.BGRKey.v2 B.v2 ∧
      channelValue (e.pixelMask sqrtf F) F.v2 e.BGRKey.v2 B.v2 ≤ 510) := by
  have hm : e.pixelMask sqrtf F = 0 ∨ e.pixelMask sqrtf F = 1 := by
    rw [pixelMask_eq sqrtf e F hfit]; split_ifs <;> simp
  refine ⟨hm, ⟨?_, channelValue_bounds _ hm _ _ _⟩, ⟨?_, channelValue_bounds _ hm _ _ _⟩,
    ⟨?_, channelValue_bounds _ hm _ _ _⟩⟩ <;>
  · simp only [CbCrChromaKeyAlg.applyPixel]
    exact storeU8_val_eq _

/-- C5 (amended), evaluated: key `(0,0,0)`, thresholds 5 < 10, white foreground and background
pixels: the mask is 0 or 1 and the blue channel written is `510 mod 256`. -/
theorem channel_formula_range_witness :
    ((CbCrChromaKeyAlg.construct 128 ⟨0, 0, 0⟩ 5 10 128).pixelMask floorSqrt ⟨255, 255, 255⟩ = 0 ∨
      (CbCrChromaKeyAlg.construct 128 ⟨0, 0, 0⟩ 5 10 128).pixelMask floorSqrt
        ⟨255, 255, 255⟩ = 1) ∧
    (((CbCrChromaKeyAlg.construct 128 ⟨0, 0, 0⟩ 5 10 128).applyPixel floorSqrt
        ⟨255, 255, 255⟩ ⟨255, 255, 255⟩).v0.val : Int) = 510 % 256 := by
  have h := channel_formula_range floorSqrt (CbCrChromaKeyAlg.construct 128 ⟨0, 0, 0⟩ 5 10 128)
    ⟨255, 255, 255⟩ ⟨255, 255, 255⟩ (by decide)
  refine ⟨h.1, ?_⟩
  rw [h.2.1.1]
  decide!

/-- C8: when the member `delta` holds the bias the keys were computed with, for every key
colour, every foreground pixel and every bias the distance returned by `CbCrDistance` is below
362, hence below the default `toleranceA = 46210`; with the default thresholds
`CbCrPixelAlpha` returns `0` and the mask is `1` for every foreground pixel. -/
theorem default_thresholds_exceed_distance (sqrtf : ℚ → ℚ) (hs : SqrtSpec sqrtf)
    (K F : Vec3b) (bias : Int) :
    (∀ tA tB : Int, (CbCrChromaKeyAlg.construct bias K tA tB bias).pixelDistance sqrtf F < 362) ∧
    (CbCrChromaKeyAlg.construct bias K defaultToleranceA defaultToleranceB bias).pixelDistance
        sqrtf F < (defaultToleranceA : ℚ) ∧
    (CbCrChromaKeyAlg.construct bias K defaultToleranceA defaultToleranceB bias).pixelAlpha
        sqrtf F = 0 ∧
    (CbCrChromaKeyAlg.construct bias K defaultToleranceA defaultToleranceB bias).pixelMask
        sqrtf F = 1 := by
  have hall : ∀ tA tB : Int,
      (CbCrChromaKeyAlg.construct bias K tA tB bias).pixelDistance sqrtf F < 362 := by
    intro tA tB
    have := pixelDistance_le sqrtf hs K F tA tB bias
    linarith
  have hdef : (CbCrChromaKeyAlg.construct bias K defaultToleranceA defaultToleranceB
      bias).pixelDistance sqrtf F < (defaultToleranceA : ℚ) := by
    have := hall defaultToleranceA defaultToleranceB
    have h2 : (362 : ℚ) ≤ (defaultToleranceA : ℚ) := by
      simp only [defaultToleranceA]; norm_num
    linarith
  refine ⟨hall, hdef, ?_, pixelMask_of_near sqrtf _ F hdef⟩
  simp only [CbCrChromaKeyAlg.pixelDistance] at hdef
  simp only [CbCrChromaKeyAlg.pixelAlpha, CbCrChromaKeyAlg.CbCrPixelAlpha]
  rw [if_pos]
  exact hdef

/-- C8, evaluated: key `(26,255,83)`, white foreground pixel, bias 128, default thresholds:
the distance is 109 and the mask is 1. -/
theorem default_thresholds_exceed_distance_witness :
    (CbCrChromaKeyAlg.construct 128 ⟨26, 255, 83⟩ defaultToleranceA defaultToleranceB
        128).pixelDistance floorSqrt ⟨255, 255, 255⟩ = 109 ∧
    (CbCrChromaKeyAlg.construct 128 ⟨26, 255, 83⟩ defaultToleranceA defaultToleranceB
        128).pixelMask floorSqrt ⟨255, 255, 255⟩ = 1 :=
  ⟨by decide!,
    (default_thresholds_exceed_distance floorSqrt floorSqrt_spec ⟨26, 255, 83⟩
      ⟨255, 255, 255⟩ 128).2.2.2⟩

/-- C1 (the code at a failing input): the constructor is called with key `(26,255,83)`,
thresholds 10 < 20 and bias 128 while the member `delta`, which it does not write, holds 0. The
key chroma is `(42, 60)`, the chroma of the foreground pixel equal to the key is `(-85, -67)`,
the mask is 0, and the pixel written over the background `(0,0,0)` is the key colour, not the
background pixel. The same happens with the thresholds 46210 < 46240 when the member holds
100000. -/
theorem key_pixel_uninitialised_delta :
    (CbCrChromaKeyAlg.construct 0 ⟨26, 255, 83⟩ 10 20 128).CbKey = 42 ∧
    (CbCrChromaKeyAlg.construct 0 ⟨26, 255, 83⟩ 10 20 128).CrKey = 60 ∧
    truncToInt (BGR2Cb ⟨26, 255, 83⟩
      (((CbCrChromaKeyAlg.construct 0 ⟨26, 255, 83⟩ 10 20 128).delta : Int) : ℚ)) = -85 ∧
    truncToInt (BGR2Cr ⟨26, 255, 83⟩
      (((CbCrChromaKeyAlg.construct 0 ⟨26, 255, 83⟩ 10 20 128).delta : Int) : ℚ)) = -67 ∧
    (CbCrChromaKeyAlg.construct 0 ⟨26, 255, 83⟩ 10 20 128).pixelMask floorSqrt
        ⟨26, 255, 83⟩ = 0 ∧
    (CbCrChromaKeyAlg.construct 0 ⟨26, 255, 83⟩ 10 20 128).applyPixel floorSqrt
        ⟨0, 0, 0⟩ ⟨26, 255, 83⟩ = ⟨26, 255, 83⟩ ∧
    (CbCrChromaKeyAlg.construct 100000 ⟨26, 255, 83⟩ 46210 46240 128).applyPixel floorSqrt
        ⟨0, 0, 0⟩ ⟨26, 255, 83⟩ = ⟨26, 255, 83⟩ := by
  decide!

/-- C2 (the code at a failing input): key `(26,255,83)`, the default thresholds and bias 128,
the member `delta` holding 128. The white foreground pixel lies at distance 109 < 46210 from the
key, the mask is 1, and over the background `(0,0,0)` the pixel written is `(229,0,172)`, not
white. -/
theorem white_pixel_default_engine :
    (CbCrChromaKeyAlg.construct 128 ⟨26, 255, 83⟩ defaultToleranceA defaultToleranceB
        defaultDelta).pixelDistance floorSqrt ⟨255, 255, 255⟩ = 109 ∧
    (CbCrChromaKeyAlg.construct 128 ⟨26, 255, 83⟩ defaultToleranceA defaultToleranceB
        defaultDelta).pixelMask floorSqrt ⟨255, 255, 255⟩ = 1 ∧
    (CbCrChromaKeyAlg.construct 128 ⟨26, 255, 83⟩ defaultToleranceA defaultToleranceB
        defaultDelta).applyPixel floorSqrt ⟨0, 0, 0⟩ ⟨255, 255, 255⟩ = ⟨229, 0, 172⟩ := by
  decide!

/-- C9 (the code at a failing input): after construction with bias `d` the member `delta` holds
the value `uninit` it held before, whatever `d` is, while `CbKey` and `CrKey` are computed from
`d`; with `uninit = 0` and `d = 128` the member is 0, not 128. -/
theorem constructor_leaves_delta (uninit : Int) (K : Vec3b) (tA tB d : Int) :
    (CbCrChromaKeyAlg.construct uninit K tA tB d).delta = uninit ∧
    (CbCrChromaKeyAlg.construct uninit K tA tB d).CbKey = truncToInt (BGR2Cb K (d : ℚ)) ∧
    (CbCrChromaKeyAlg.construct uninit K tA tB d).CrKey = truncToInt (BGR2Cr K (d : ℚ)) ∧
    (CbCrChromaKeyAlg.construct 0 ⟨26, 255, 83⟩ 46210 46240 128).delta ≠ 128 :=
  ⟨rfl, rfl, rfl, by decide⟩

/-- C10 (as stated, refuted): with bias 128 the pure blue pixel `(255,0,0)` has blue chroma
`255.42452 > 255` and the pure red pixel `(0,0,255)` has red chroma `255.452315 > 255`. -/
theorem chroma_conversion_range_counterexample :
    BGR2Cb ⟨255, 0, 0⟩ 128 = 25542452 / 100000 ∧ ¬ (BGR2Cb ⟨255, 0, 0⟩ 128 ≤ 255) ∧
    BGR2Cr ⟨0, 0, 255⟩ 128 = 255452315 / 1000000 ∧ ¬ (BGR2Cr ⟨0, 0, 255⟩ 128 ≤ 255) := by
  decide!

/-- C10 (amended): for every pixel the luma lies in `[0,255]`; with bias 128 the blue and the
red chroma lie in `[0, 255.5]`; a gray pixel `(v,v,v)` has luma `v` and both chroma values equal
to the bias. -/
theorem chroma_conversion_range :
    (∀ p : Vec3b, 0 ≤ BGR2Y p ∧ BGR2Y p ≤ 255) ∧
    (∀ p : Vec3b, 0 ≤ BGR2Cb p 128 ∧ BGR2Cb p 128 ≤ 255 + 1 / 2) ∧
    (∀ p : Vec3b, 0 ≤ BGR2Cr p 128 ∧ BGR2Cr p 128 ≤ 255 + 1 / 2) ∧
    (∀ (v : Fin 256) (delta : ℚ),
      BGR2Y ⟨v, v, v⟩ = (v.val : ℚ) ∧ BGR2Cb ⟨v, v, v⟩ delta = delta ∧
        BGR2Cr ⟨v, v, v⟩ delta = delta) := by
  refine ⟨BGR2Y_bounds, ?_, ?_, ?_⟩
  · intro p
    have h := BGR2Cb_bounds p 128
    constructor <;> linarith [h.1, h.2]
  · intro p
    have h := BGR2Cr_bounds p 128
    constructor <;> linarith [h.1, h.2]
  · intro v delta
    simp only [BGR2Cb, BGR2Cr, BGR2Y]
    refine ⟨?_, ?_, ?_⟩ <;> ring

end GreenScreen
